import Mathlib

/-!
A shallow embedding of the Resource-Compiler archive format and the two
programs operating on it:

* the packer `compile_exe` (src/compiler_gui/src/main.rs), which validates a
  build request, serializes a JSON header, concatenates resource bytes,
  optionally compresses the payload, and appends
  `header ++ payload ++ 24-byte footer` to a stub binary; and
* the extractor/launcher `main` (src/resource_stub/src/main.rs), which reads
  the trailer of its own binary image, recovers header and payload, writes
  the resource files, and launches the designated main file.

Bytes are modelled as `Nat` (values < 256 in any real file); byte strings as
`List Nat`.  Machine-integer casts (`as u32`) are modelled by `% 2 ^ 32`.
External libraries (serde_json, flate2, the Windows elevation query) are
modelled at their interface: the header codec and the payload compressor are
parameters constrained by the round-trip contract the source relies on (the
spec itself says "any deterministic textual or binary encoding is acceptable
as long as the Extractor agrees"), and the elevation query result is an
`Option Bool` (`none` models the query returning an error).
-/

namespace ResourceCompiler

/-- The 16-byte footer marker constant `FOOTER_MARKER = b"RSCARCHIVE_V1___"`,
as its byte values. -/
def markerBytes : List Nat := (String.toList "RSCARCHIVE_V1___").map Char.toNat

/-- `(n as u32).to_le_bytes()`: the four little-endian bytes of `n` modulo
`2 ^ 32`. -/
def le32 (n : Nat) : List Nat :=
  [n % 256, n / 256 % 256, n / 65536 % 256, n / 16777216 % 256]

/-- `u32::from_le_bytes` on a 4-byte slice (any other shape cannot occur when
reading inside the 24-byte footer buffer). -/
def fromLe32 : List Nat → Nat
  | [a, b, c, d] => a + 256 * b + 65536 * c + 16777216 * d
  | _ => 0

theorem le32_length (n : Nat) : (le32 n).length = 4 := rfl

theorem markerBytes_length : markerBytes.length = 16 := rfl

theorem fromLe32_le32 (n : Nat) : fromLe32 (le32 n) = n % 2 ^ 32 := by
  have h : (2 : Nat) ^ 32 = 4294967296 := by norm_num
  simp only [le32, fromLe32, h]
  omega

/-! ### Path helpers

Simplified models of the `std::path` operations the source uses
(`Path::file_name`, `Path::join`, `Path::extension`).  Paths are strings;
both Windows separators are recognised.  Corner cases that the source never
exercises (`.` components, drive-letter roots) are not normalised. -/

/-- A path-separator character (Windows accepts both). -/
def isSep (c : Char) : Bool := c = '\\' || c = '/'

/-- Remove trailing separators, as `Path` component iteration does. -/
def stripTrailingSeps (l : List Char) : List Char :=
  (l.reverse.dropWhile isSep).reverse

/-- The characters after the last separator. -/
def lastComp (l : List Char) : List Char :=
  l.foldl (fun acc c => if isSep c then [] else acc ++ [c]) []

/-- Models `Path::file_name`: the final component of the path, `none` for an
empty final component or a `..` component. -/
def fileName (p : String) : Option String :=
  let comp := lastComp (stripTrailingSeps p.data)
  if comp.isEmpty || comp = ['.', '.'] then none else some (String.mk comp)

/-- Whether a path begins with a separator (models `Path::is_absolute` well
enough for join semantics; drive-letter roots are not modelled). -/
def isAbsolutePath (s : String) : Bool :=
  match s.data with
  | [] => false
  | c :: _ => isSep c

/-- Whether a path ends with a separator. -/
def endsWithSep (s : String) : Bool :=
  match s.data.getLast? with
  | some c => isSep c
  | none => false

/-- Models `Path::join` / `PathBuf::push`: an absolute child replaces the
base, otherwise the child is appended after a separator.  No sanitization of
the child is performed. -/
def joinPath (base child : String) : String :=
  if isAbsolutePath child then child
  else if base = "" then child
  else if endsWithSep base then base ++ child
  else base ++ "\\" ++ child

/-- Models `Path::extension().and_then(to_str).unwrap_or("")`: the text after
the last `.` of the final component; empty when there is no dot or when the
only dot starts a hidden-file name. -/
def extensionOf (p : String) : String :=
  let comp := lastComp p.data
  let extR := comp.reverse.takeWhile (fun c => c ≠ '.')
  if extR.length = comp.length then ""
  else if comp.length = extR.length + 1 && comp.headD ' ' = '.' then ""
  else String.mk extR.reverse

/-- ASCII lowercasing of a string (models `str::to_lowercase` on the ASCII
strings the execution-style match compares against). -/
def strToLower (s : String) : String := String.mk (s.data.map Char.toLower)

/-- Models `str::eq_ignore_ascii_case`. -/
def eqIgnoreAsciiCase (a b : String) : Bool := strToLower a == strToLower b

/-! ### Data model (`ResourceEntry`, `ArchiveHeader`) -/

/-- One resource record of the archive header: `filename` and the `u32` byte
count of its slice of the decompressed payload. -/
structure ResourceEntry where
  filename : String
  size : Nat
deriving DecidableEq, Repr

/-- The archive header, exactly the field set shared by packer and stub. -/
structure ArchiveHeader where
  extraction_path : String
  main_file : String
  resources : List ResourceEntry
  execution_style : String
  run_as_admin : Bool
  is_compressed : Bool
deriving DecidableEq, Repr

/-! ### Packer (`compile_exe`, src/compiler_gui/src/main.rs) -/

/-- A disk operation performed by the packer, in order. -/
inductive IOEvent where
  | readFile (path : String)
  | writeFile (path : String)
deriving DecidableEq, Repr

/-- The packing-relevant fields of the GUI `AppState` — the immutable build
request the spec's packer entry point consumes (GUI-only fields such as the
theme, search query and optional icon are outside the core and omitted). -/
structure BuildRequest where
  extraction_path : String
  main_file : String
  resources : List String
  output_exe : String
  execution_style : String
  run_as_admin : Bool
  compress_resources : Bool
deriving DecidableEq, Repr

/-- The packer's validation check: some resource path has `main_file` as its
filename component (`resources.iter().any(|p| p.file_name() ... == main_file)`). -/
def mainFileFound (st : BuildRequest) : Bool :=
  st.resources.any fun p => ((fileName p).map (fun f => f == st.main_file)).getD false

/-- The header value the packer builds from the request and the recorded
resource entries. -/
def mkHeader (st : BuildRequest) (entries : List ResourceEntry) : ArchiveHeader :=
  { extraction_path := st.extraction_path
    main_file := st.main_file
    resources := entries
    execution_style := st.execution_style
    run_as_admin := st.run_as_admin
    is_compressed := st.compress_resources }

/-- The packer's resource-reading loop: reads each file in list order,
records `⟨filename, data.len() as u32⟩` and concatenates the bytes.  Returns
the accumulated entries and payload (or the first error) together with the
reads performed. -/
def readResources (fs : String → Option (List Nat)) :
    List String → Except String (List ResourceEntry × List Nat) × List IOEvent
  | [] => (Except.ok ([], []), [])
  | p :: ps =>
    match fs p with
    | none => (Except.error ("Failed to read resource " ++ p), [IOEvent.readFile p])
    | some data =>
      match fileName p with
      | none => (Except.error "Invalid resource file name", [IOEvent.readFile p])
      | some fn =>
        match readResources fs ps with
        | (Except.ok (es, ds), evs) =>
          (Except.ok (⟨fn, data.length % 2 ^ 32⟩ :: es, data ++ ds), IOEvent.readFile p :: evs)
        | (Except.error e, evs) => (Except.error e, IOEvent.readFile p :: evs)

/-- The packer `compile_exe`.  `enc` models `serde_json::to_string` on the
header, `comp` models single-stream gzip compression (flate2), `fs` models
the readable file system.  Returns the bytes written to `output_exe` (or the
error message) and the ordered disk operations performed. -/
def compileExe (enc : ArchiveHeader → List Nat) (comp : List Nat → List Nat)
    (fs : String → Option (List Nat)) (st : BuildRequest) :
    Except String (List Nat) × List IOEvent :=
  if !mainFileFound st then
    (Except.error "Main file must be one of the added resources (by filename)", [])
  else
    match fs "stub.exe" with
    | none => (Except.error "Failed to read stub.exe", [IOEvent.readFile "stub.exe"])
    | some stub =>
      match readResources fs st.resources with
      | (Except.error e, evs) => (Except.error e, IOEvent.readFile "stub.exe" :: evs)
      | (Except.ok (entries, resourceData), evs) =>
        let headerBytes := enc (mkHeader st entries)
        let headerLength := headerBytes.length
        let finalResourceData :=
          if st.compress_resources then comp resourceData else resourceData
        let archiveData := headerBytes ++ finalResourceData
        let footer := le32 headerLength ++ le32 archiveData.length ++ markerBytes
        (Except.ok (stub ++ archiveData ++ footer),
          IOEvent.readFile "stub.exe" :: evs ++ [IOEvent.writeFile st.output_exe])

/-! ### Extractor / launcher (`main`, src/resource_stub/src/main.rs) -/

/-- The four `SHOW_WINDOW_CMD` window-visibility directives the stub can pass
to `ShellExecuteW`. -/
inductive ShowCmd where
  | swHide
  | swShowMinimized
  | swShowNormal
  | swShowMaximized
deriving DecidableEq, Repr

/-- The stub's `execution_style` match: lowercase the string, map the four
known values, and default everything else to `SW_SHOWNORMAL`. -/
def showCmdOf (style : String) : ShowCmd :=
  if strToLower style = "no-window" then ShowCmd.swHide
  else if strToLower style = "minimized" then ShowCmd.swShowMinimized
  else if strToLower style = "normal" then ShowCmd.swShowNormal
  else if strToLower style = "maximized" then ShowCmd.swShowMaximized
  else ShowCmd.swShowNormal

/-- The stub's notice text when the process is not elevated. -/
def adminPlainMsg : String := "Please run as administrator."

/-- The stub's notice text when the elevation query itself fails. -/
def adminFailMsg : String := "Failed to check admin rights. Please run as administrator."

/-- How a run of the stub ends.  Every early `return` of the source `main`
is one constructor; `launched` records the `ShellExecuteW` dispatch
arguments. -/
inductive StubOutcome where
  | noArchive
  | badMarker
  | badArchiveStart
  | badHeaderLength
  | headerParseFailed
  | adminNotice (message : String)
  | decompressFailed
  | incompleteResource
  | launched (operation : String) (file : String) (parameters : String) (showCmd : ShowCmd)
deriving DecidableEq, Repr

/-- The observable effects of one stub run: the resource files written (path
and bytes, in order), the extraction directory created (if reached), and the
final outcome. -/
structure StubRun where
  writes : List (String × List Nat)
  createdDir : Option String
  outcome : StubOutcome
deriving DecidableEq, Repr

/-- The extraction loop: walk `resources` in header order with a running
offset from 0, slice exactly `size` bytes per entry, fail if a slice would
overrun the payload.  `Except.error` carries the files already written when
the overrun is detected. -/
def extractLoop (ep : String) (bytes : List Nat) (offset : Nat) :
    List ResourceEntry → Except (List (String × List Nat)) (List (String × List Nat))
  | [] => Except.ok []
  | r :: rs =>
    if bytes.length < offset + r.size then Except.error []
    else
      let data := (bytes.drop offset).take r.size
      match extractLoop ep bytes (offset + r.size) rs with
      | Except.ok ws => Except.ok ((joinPath ep r.filename, data) :: ws)
      | Except.error ws => Except.error ((joinPath ep r.filename, data) :: ws)

/-- The launch step: map the execution style, resolve the main file under the
extraction path, and dispatch through `cmd /c` for batch scripts or directly
otherwise.  The operation verb is `"open"` on both sides of the source's
`if run_as_admin` conditional. -/
def launchStep (header : ArchiveHeader) : StubOutcome :=
  let showCmd := showCmdOf header.execution_style
  let mainFilePath := joinPath header.extraction_path header.main_file
  let operation := if header.run_as_admin then "open" else "open"
  let ext := extensionOf mainFilePath
  if eqIgnoreAsciiCase ext "bat" || eqIgnoreAsciiCase ext "cmd" then
    StubOutcome.launched operation "cmd" ("/c \"" ++ mainFilePath ++ "\"") showCmd
  else
    StubOutcome.launched operation mainFilePath "" showCmd

/-- The tail of the stub after the admin gate: create the extraction
directory, decompress the payload when `is_compressed` (a decompression
failure aborts with the directory already created), run the extraction loop,
then launch.  `decomp` models `GzDecoder::read_to_end`. -/
def extractorRest (decomp : List Nat → Option (List Nat)) (header : ArchiveHeader)
    (resourceBytes : List Nat) : StubRun :=
  match (if header.is_compressed then decomp resourceBytes else some resourceBytes) with
  | none => ⟨[], some header.extraction_path, StubOutcome.decompressFailed⟩
  | some finalBytes =>
    match extractLoop header.extraction_path finalBytes 0 header.resources with
    | Except.error ws => ⟨ws, some header.extraction_path, StubOutcome.incompleteResource⟩
    | Except.ok ws => ⟨ws, some header.extraction_path, launchStep header⟩

/-- The stub `main` as a function of its own file image.  `dec` models
`serde_json::from_slice` on the header slice, `elev` the `is_elevated()`
result (`none` models the query returning `Err`).  After the sign check on
`archive_start` the source seeks to it as an unsigned offset; the equal
natural subtraction `file.length - (archiveDataLength + 24)` is used here. -/
def extractorRun (dec : List Nat → Option ArchiveHeader)
    (decomp : List Nat → Option (List Nat)) (elev : Option Bool)
    (file : List Nat) : StubRun :=
  if file.length < 24 then ⟨[], none, StubOutcome.noArchive⟩
  else
    let footerBuf := file.drop (file.length - 24)
    let headerLength := fromLe32 (footerBuf.take 4)
    let archiveDataLength := fromLe32 ((footerBuf.drop 4).take 4)
    let marker := footerBuf.drop 8
    if marker ≠ markerBytes then ⟨[], none, StubOutcome.badMarker⟩
    else if (file.length : Int) - ((archiveDataLength : Int) + 24) < 0 then
      ⟨[], none, StubOutcome.badArchiveStart⟩
    else
      let archiveData := (file.drop (file.length - (archiveDataLength + 24))).take archiveDataLength
      if archiveData.length < headerLength then ⟨[], none, StubOutcome.badHeaderLength⟩
      else
        let headerJson := archiveData.take headerLength
        let resourceBytes := archiveData.drop headerLength
        match dec headerJson with
        | none => ⟨[], none, StubOutcome.headerParseFailed⟩
        | some header =>
          if header.run_as_admin then
            match elev with
            | some true => extractorRest decomp header resourceBytes
            | some false => ⟨[], none, StubOutcome.adminNotice adminPlainMsg⟩
            | none => ⟨[], none, StubOutcome.adminNotice adminFailMsg⟩
          else extractorRest decomp header resourceBytes

/-- The disk contents at `p` after a sequence of `fs::write` operations:
the last write to `p` wins (later resources overwrite earlier ones that
share the same target path). -/
def finalDisk (ws : List (String × List Nat)) (p : String) : Option (List Nat) :=
  ws.foldl (fun acc w => if w.1 = p then some w.2 else acc) none

/-! ### A concrete header codec

Modelled from the spec: `serde_json` (the header serializer/deserializer the
source delegates to) is outside the repository; the spec only requires "a
canonical self-describing encoding … any deterministic textual or binary
encoding is acceptable as long as the Extractor agrees".  The development is
therefore parametrized over any codec satisfying the round-trip contract,
and this simple executable length-prefixed encoding is one such codec, used
to instantiate witnesses and counterexamples. -/

/-- Length-prefixed string encoding. -/
def encStr (s : String) : List Nat := s.length :: s.data.map Char.toNat

/-- Boolean encoding. -/
def encBool (b : Bool) : List Nat := [if b then 1 else 0]

/-- One resource entry: its filename then its size. -/
def encEntry (r : ResourceEntry) : List Nat := encStr r.filename ++ [r.size]

/-- The witness header encoder: all six fields in declaration order, the
resource list count-prefixed. -/
def wEnc (h : ArchiveHeader) : List Nat :=
  encStr h.extraction_path ++ encStr h.main_file ++
    h.resources.length :: (h.resources.map encEntry).flatten ++
    encStr h.execution_style ++ encBool h.run_as_admin ++ encBool h.is_compressed

/-- Decode a length-prefixed string, returning it with the remaining input. -/
def decStr : List Nat → Option (String × List Nat)
  | [] => none
  | n :: rest =>
    if n ≤ rest.length then
      some (String.mk ((rest.take n).map Char.ofNat), rest.drop n)
    else none

/-- Decode a boolean. -/
def decBool : List Nat → Option (Bool × List Nat)
  | [] => none
  | n :: rest => some (n == 1, rest)

/-- Decode a count-prefixed list of resource entries. -/
def decEntries : Nat → List Nat → Option (List ResourceEntry × List Nat)
  | 0, l => some ([], l)
  | Nat.succ k, l =>
    match decStr l with
    | none => none
    | some (fn, l1) =>
      match l1 with
      | [] => none
      | sz :: l2 =>
        match decEntries k l2 with
        | none => none
        | some (es, l3) => some (⟨fn, sz⟩ :: es, l3)

/-- The witness header decoder, inverse to `wEnc`. -/
def wDec (l : List Nat) : Option ArchiveHeader :=
  match decStr l with
  | none => none
  | some (ep, l1) =>
    match decStr l1 with
    | none => none
    | some (mf, l2) =>
      match l2 with
      | [] => none
      | cnt :: l3 =>
        match decEntries cnt l3 with
        | none => none
        | some (rs, l4) =>
          match decStr l4 with
          | none => none
          | some (style, l5) =>
            match decBool l5 with
            | none => none
            | some (adm, l6) =>
              match decBool l6 with
              | none => none
              | some (cmp, _) => some ⟨ep, mf, rs, style, adm, cmp⟩

theorem decStr_encStr (s : String) (rest : List Nat) :
    decStr (encStr s ++ rest) = some (s, rest) := by
  have hlen : s.length = (s.data.map Char.toNat).length := by
    rw [List.length_map]
    rfl
  have hle : s.length ≤ (s.data.map Char.toNat ++ rest).length := by
    rw [List.length_append, ← hlen]
    omega
  simp only [encStr, decStr, List.cons_append]
  rw [if_pos hle, hlen, List.take_left, List.drop_left]
  simp only [List.map_map]
  have hco : (Char.ofNat ∘ Char.toNat) = id := by
    funext c
    exact Char.ofNat_toNat c
  rw [hco, List.map_id]

theorem decBool_encBool (b : Bool) (rest : List Nat) :
    decBool (encBool b ++ rest) = some (b, rest) := by
  cases b <;> rfl

theorem decEntries_encEntries (rs : List ResourceEntry) (rest : List Nat) :
    decEntries rs.length ((rs.map encEntry).flatten ++ rest) = some (rs, rest) := by
  induction rs with
  | nil => rfl
  | cons r rs ih =>
    simp only [List.map_cons, List.flatten_cons, List.length_cons, encEntry, List.append_assoc]
    simp only [decEntries, List.cons_append]
    rw [decStr_encStr]
    simp only [List.cons_append, List.nil_append, ih]

/-- The witness codec satisfies the serde round-trip contract. -/
theorem wDec_wEnc (h : ArchiveHeader) : wDec (wEnc h) = some h := by
  obtain ⟨ep, mf, rs, style, adm, cmp⟩ := h
  simp only [wEnc, wDec, List.append_assoc, List.cons_append]
  rw [decStr_encStr]
  simp only
  rw [decStr_encStr]
  simp only
  rw [decEntries_encEntries]
  simp only
  rw [decStr_encStr]
  simp only
  rw [decBool_encBool]
  simp only
  cases cmp <;> rfl

/-- The witness payload codec: flate2's contract is that decompression
inverts single-stream compression; the identity pair is one instance of
that contract. -/
def wComp (x : List Nat) : List Nat := x

/-- Decompressor matching `wComp`. -/
def wDecomp (x : List Nat) : Option (List Nat) := some x

theorem wDecomp_wComp (x : List Nat) : wDecomp (wComp x) = some x := rfl

/-! ### Derived views of the packer -/

/-- The filename component the packer records for a path. -/
def nameOf (p : String) : String := (fileName p).getD ""

/-- The bytes the packer reads for a path. -/
def contentsOf (fs : String → Option (List Nat)) (p : String) : List Nat :=
  (fs p).getD []

/-- The entries `readResources` produces when every read succeeds. -/
def packEntries (fs : String → Option (List Nat)) (paths : List String) :
    List ResourceEntry :=
  paths.map fun p => ⟨nameOf p, (contentsOf fs p).length % 2 ^ 32⟩

/-- The raw concatenated payload `readResources` produces when every read
succeeds. -/
def packPayload (fs : String → Option (List Nat)) (paths : List String) : List Nat :=
  (paths.map (contentsOf fs)).flatten

theorem readResources_eq (fs : String → Option (List Nat)) (paths : List String)
    (h : ∀ p ∈ paths, (fs p).isSome ∧ (fileName p).isSome) :
    readResources fs paths =
      (Except.ok (packEntries fs paths, packPayload fs paths),
        paths.map IOEvent.readFile) := by
  induction paths with
  | nil => rfl
  | cons p ps ih =>
    obtain ⟨hfs, hfn⟩ := h p (List.mem_cons_self p ps)
    obtain ⟨d, hd⟩ := Option.isSome_iff_exists.mp hfs
    obtain ⟨n, hn⟩ := Option.isSome_iff_exists.mp hfn
    have ih' := ih fun q hq => h q (List.mem_cons_of_mem p hq)
    simp only [readResources, hd, hn, ih', packEntries, packPayload, List.map_cons,
      List.flatten_cons, contentsOf, nameOf, hd, hn, Option.getD_some]

theorem readResources_ok_inv (fs : String → Option (List Nat)) (paths : List String)
    (entries : List ResourceEntry) (raw : List Nat) (evs : List IOEvent)
    (h : readResources fs paths = (Except.ok (entries, raw), evs)) :
    entries = packEntries fs paths ∧ raw = packPayload fs paths := by
  induction paths generalizing entries raw evs with
  | nil =>
    simp only [readResources, Prod.mk.injEq, Except.ok.injEq] at h
    obtain ⟨⟨h1, h2⟩, -⟩ := h
    simp [← h1, ← h2, packEntries, packPayload]
  | cons p ps ih =>
    cases hfs : fs p with
    | none => simp [readResources, hfs] at h
    | some d =>
      cases hfn : fileName p with
      | none => simp [readResources, hfs, hfn] at h
      | some fn =>
        cases hrec : readResources fs ps with
        | mk res evs2 =>
          cases res with
          | error e => simp [readResources, hfs, hfn, hrec] at h
          | ok pr =>
            obtain ⟨es, ds⟩ := pr
            obtain ⟨hes, hds⟩ := ih es ds evs2 hrec
            simp only [readResources, hfs, hfn, hrec, Prod.mk.injEq, Except.ok.injEq] at h
            obtain ⟨⟨h1, h2⟩, -⟩ := h
            constructor
            · rw [← h1, hes]
              simp [packEntries, nameOf, contentsOf, hfs, hfn]
            · rw [← h2, hds]
              simp [packPayload, contentsOf, hfs]

/-- The packer's output on a valid request, as an explicit byte string:
`stub ++ (header ++ payload) ++ (LE32 lengths ++ marker)`. -/
theorem compileExe_eq (enc : ArchiveHeader → List Nat) (comp : List Nat → List Nat)
    (fs : String → Option (List Nat)) (st : BuildRequest)
    (stub : List Nat) (entries : List ResourceEntry) (raw : List Nat) (evs : List IOEvent)
    (hmain : mainFileFound st = true)
    (hstub : fs "stub.exe" = some stub)
    (hres : readResources fs st.resources = (Except.ok (entries, raw), evs)) :
    compileExe enc comp fs st =
      (Except.ok (stub ++
          ((enc (mkHeader st entries)) ++ (if st.compress_resources then comp raw else raw)) ++
          (le32 (enc (mkHeader st entries)).length ++
            le32 ((enc (mkHeader st entries)).length +
              (if st.compress_resources then comp raw else raw).length) ++ markerBytes)),
        IOEvent.readFile "stub.exe" :: evs ++ [IOEvent.writeFile st.output_exe]) := by
  simp only [compileExe, hmain, Bool.not_true, Bool.false_eq_true, if_false, hstub, hres,
    List.length_append]

/-- Running the stub on a file the packer laid out reaches exactly the admin
gate with the decoded header and the raw payload slice, provided the whole
archive block is below the `u32` range of the footer fields. -/
theorem extractorRun_packed (dec : List Nat → Option ArchiveHeader)
    (decomp : List Nat → Option (List Nat)) (elev : Option Bool)
    (stub hb payload : List Nat) (h : ArchiveHeader)
    (hdec : dec hb = some h) (hal : hb.length + payload.length < 2 ^ 32) :
    extractorRun dec decomp elev
      (stub ++ (hb ++ payload) ++
        (le32 hb.length ++ le32 (hb.length + payload.length) ++ markerBytes)) =
    (if h.run_as_admin then
      match elev with
      | some true => extractorRest decomp h payload
      | some false => ⟨[], none, StubOutcome.adminNotice adminPlainMsg⟩
      | none => ⟨[], none, StubOutcome.adminNotice adminFailMsg⟩
    else extractorRest decomp h payload) := by
  set al := hb.length + payload.length with hal_def
  set F := le32 hb.length ++ le32 al ++ markerBytes with hF
  set file := stub ++ (hb ++ payload) ++ F with hfile
  have hG8 : (le32 hb.length ++ le32 al).length = 8 := by simp [le32]
  have hF24 : F.length = 24 := by
    rw [hF]
    simp [le32, markerBytes_length]
  have hHPal : (hb ++ payload).length = al := by
    simp [List.length_append, hal_def]
  have hflen : file.length = stub.length + al + 24 := by
    rw [hfile]
    simp only [List.length_append, hF24, hHPal]
  have h1 : ¬ file.length < 24 := by omega
  have hdropF : file.drop (file.length - 24) = F := by
    rw [hfile]
    apply List.drop_left'
    simp only [List.length_append]
    omega
  have hTakeF : F.take 4 = le32 hb.length := by
    rw [hF, List.append_assoc]
    exact List.take_left' (le32_length _)
  have hDropF4 : F.drop 4 = le32 al ++ markerBytes := by
    rw [hF, List.append_assoc]
    exact List.drop_left' (le32_length _)
  have hHL : fromLe32 (F.take 4) = hb.length := by
    rw [hTakeF, fromLe32_le32, Nat.mod_eq_of_lt]
    omega
  have hAL : fromLe32 ((F.drop 4).take 4) = al := by
    rw [hDropF4, List.take_left' (le32_length _), fromLe32_le32, Nat.mod_eq_of_lt hal]
  have hmark : F.drop 8 = markerBytes := by
    rw [hF]
    exact List.drop_left' hG8
  have hstart : ¬ ((file.length : Int) - ((al : Int) + 24) < 0) := by
    rw [hflen]
    push_cast
    omega
  have hsub : file.length - (al + 24) = stub.length := by omega
  have hAD : (file.drop (file.length - (al + 24))).take al = hb ++ payload := by
    rw [hsub, hfile, List.append_assoc, List.drop_left]
    exact List.take_left' hHPal
  simp only [extractorRun]
  rw [if_neg h1]
  simp only [hdropF, hHL, hAL, hmark]
  rw [if_neg (show ¬markerBytes ≠ markerBytes from fun hx => hx rfl)]
  rw [if_neg hstart]
  simp only [hAD, List.length_append]
  rw [if_neg (show ¬hb.length + payload.length < hb.length by omega)]
  rw [List.take_left, List.drop_left, hdec]

/-- The extraction loop on a payload laid out as the concatenation of the
entries' byte strings (with matching sizes) succeeds and writes each entry's
exact bytes, in order. -/
theorem extractLoop_append (ep : String) :
    ∀ (fns : List (String × List Nat)) (pre : List Nat),
      extractLoop ep (pre ++ (fns.map Prod.snd).flatten) pre.length
        (fns.map fun f => ⟨f.1, f.2.length⟩) =
      Except.ok (fns.map fun f => (joinPath ep f.1, f.2)) := by
  intro fns
  induction fns with
  | nil => intro pre; rfl
  | cons f fns ih =>
    intro pre
    simp only [List.map_cons, List.flatten_cons, extractLoop]
    have hlen : ¬ (pre ++ (f.2 ++ (fns.map Prod.snd).flatten)).length <
        pre.length + f.2.length := by
      simp only [List.length_append]
      omega
    rw [if_neg hlen]
    have hrec : extractLoop ep (pre ++ (f.2 ++ (fns.map Prod.snd).flatten))
        (pre.length + f.2.length) (fns.map fun g => ⟨g.1, g.2.length⟩) =
        Except.ok (fns.map fun g => (joinPath ep g.1, g.2)) := by
      have h := ih (pre ++ f.2)
      rw [List.append_assoc, List.length_append] at h
      exact h
    rw [hrec, List.drop_left, List.take_left]

/-- A fold over writes never changes the accumulator when the queried path is
not among the written paths. -/
theorem finalDiskAux_not_mem (p : String) :
    ∀ (ws : List (String × List Nat)) (acc : Option (List Nat)),
      p ∉ ws.map Prod.fst →
      ws.foldl (fun acc w => if w.1 = p then some w.2 else acc) acc = acc := by
  intro ws
  induction ws with
  | nil => intro acc _; rfl
  | cons w ws ih =>
    intro acc h
    simp only [List.map_cons, List.mem_cons] at h
    push_neg at h
    simp only [List.foldl]
    rw [if_neg fun he => h.1 he.symm]
    exact ih acc h.2

/-- When the written paths are pairwise distinct, the final disk state at a
written path is the bytes written there. -/
theorem finalDiskAux_mem (p : String) (v : List Nat) :
    ∀ (ws : List (String × List Nat)) (acc : Option (List Nat)),
      (ws.map Prod.fst).Pairwise (fun a b => a ≠ b) → (p, v) ∈ ws →
      ws.foldl (fun acc w => if w.1 = p then some w.2 else acc) acc = some v := by
  intro ws
  induction ws with
  | nil => intro acc _ hmem; cases hmem
  | cons w ws ih =>
    intro acc hdist hmem
    simp only [List.map_cons, List.pairwise_cons] at hdist
    obtain ⟨hhead, htail⟩ := hdist
    simp only [List.foldl]
    cases List.mem_cons.mp hmem with
    | inl heq =>
      have hp : p ∉ ws.map Prod.fst := by
        intro hmem2
        have : w.1 ≠ p := hhead p hmem2
        rw [← heq] at this
        exact this rfl
      rw [← heq]
      rw [if_pos rfl]
      exact finalDiskAux_not_mem p ws (some v) hp
    | inr hmem2 =>
      exact ih _ htail hmem2

theorem finalDisk_eq_of_mem (ws : List (String × List Nat)) (p : String) (v : List Nat)
    (hdist : (ws.map Prod.fst).Pairwise (fun a b => a ≠ b)) (hmem : (p, v) ∈ ws) :
    finalDisk ws p = some v :=
  finalDiskAux_mem p v ws none hdist hmem

/-! ### Claim theorems -/

/-- C7: if `main_file` does not match the filename component of any input
resource path, the packer fails with the validation error and performs no
I/O at all — the returned event trace is empty, so no stub or resource read
and no output write happens. -/
theorem validation_no_io (enc : ArchiveHeader → List Nat) (comp : List Nat → List Nat)
    (fs : String → Option (List Nat)) (st : BuildRequest)
    (hmain : mainFileFound st = false) :
    compileExe enc comp fs st =
      (Except.error "Main file must be one of the added resources (by filename)", []) := by
  simp [compileExe, hmain]

/-- A build request whose `main_file` matches no resource filename. -/
def badSt : BuildRequest :=
  { extraction_path := "out", main_file := "missing.exe", resources := ["a\\x.txt"],
    output_exe := "p.exe", execution_style := "normal", run_as_admin := false,
    compress_resources := false }

/-- Witness for C7 at a concrete invalid request. -/
theorem validation_no_io_witness :
    compileExe wEnc wComp (fun _ => none) badSt =
      (Except.error "Main file must be one of the added resources (by filename)", []) :=
  validation_no_io wEnc wComp (fun _ => none) badSt (by decide)

/-- C9: the launcher maps `execution_style` case-insensitively onto the four
window-visibility directives, and every string that lowercases to none of
the four recognised values falls back to `SW_SHOWNORMAL` instead of
failing. -/
theorem execution_style_mapping :
    (∀ s t, strToLower s = strToLower t → showCmdOf s = showCmdOf t) ∧
    (showCmdOf "no-window" = ShowCmd.swHide ∧
      showCmdOf "MINIMIZED" = ShowCmd.swShowMinimized ∧
      showCmdOf "Normal" = ShowCmd.swShowNormal ∧
      showCmdOf "maximized" = ShowCmd.swShowMaximized) ∧
    (∀ s, strToLower s ≠ "no-window" → strToLower s ≠ "minimized" →
      strToLower s ≠ "maximized" → showCmdOf s = ShowCmd.swShowNormal) := by
  refine ⟨fun s t hst => ?_, by decide, fun s h1 h2 h3 => ?_⟩
  · simp only [showCmdOf, hst]
  · unfold showCmdOf
    rw [if_neg h1, if_neg h2]
    by_cases hn : strToLower s = "normal"
    · rw [if_pos hn]
    · rw [if_neg hn, if_neg h3]

/-- Witness for C9: a mixed-case recognised value and an unrecognised value. -/
theorem execution_style_mapping_witness :
    showCmdOf "NO-window" = ShowCmd.swHide ∧
      showCmdOf "fullscreen" = ShowCmd.swShowNormal := by
  constructor
  · rw [execution_style_mapping.1 "NO-window" "no-window" (by decide)]
    exact execution_style_mapping.2.1.1
  · exact execution_style_mapping.2.2 "fullscreen" (by decide) (by decide) (by decide)

/-- C10: extraction writes every resource to `extraction_path` joined with
the stored filename exactly as it appears in the header — no validation or
sanitization — so a filename carrying separators or `..` components produces
a path that resolves outside the extraction directory. -/
theorem unsanitized_join_paths :
    (∀ (ep : String) (bytes : List Nat) (off : Nat) (rs : List ResourceEntry)
        (ws : List (String × List Nat)),
      extractLoop ep bytes off rs = Except.ok ws →
      ws.map Prod.fst = rs.map fun r => joinPath ep r.filename) ∧
    joinPath "C:\\out" "..\\evil.exe" = "C:\\out\\..\\evil.exe" ∧
    joinPath "out" "sub\\x.txt" = "out\\sub\\x.txt" := by
  refine ⟨?_, by decide, by decide⟩
  intro ep bytes off rs
  induction rs generalizing off with
  | nil =>
    intro ws h
    simp only [extractLoop, Except.ok.injEq] at h
    rw [← h]
    rfl
  | cons r rs ih =>
    intro ws h
    simp only [extractLoop] at h
    by_cases hg : bytes.length < off + r.size
    · rw [if_pos hg] at h
      simp at h
    · rw [if_neg hg] at h
      cases hrec : extractLoop ep bytes (off + r.size) rs with
      | error ws2 =>
        rw [hrec] at h
        simp at h
      | ok ws2 =>
        rw [hrec] at h
        simp only [Except.ok.injEq] at h
        rw [← h]
        simp only [List.map_cons, List.cons.injEq]
        exact ⟨trivial, ih (off + r.size) ws2 hrec⟩

/-- Witness for C10's universally quantified part at a concrete loop run. -/
theorem unsanitized_join_paths_witness :
    ([("o\\f", ([1, 2] : List Nat))].map Prod.fst) =
      [(⟨"f", 2⟩ : ResourceEntry)].map (fun r => joinPath "o" r.filename) :=
  unsanitized_join_paths.1 "o" [1, 2] 0 [⟨"f", 2⟩] [("o\\f", [1, 2])] rfl

/-- C6: whenever the declared `archive_data_length` plus the 24-byte footer
exceeds the file size — i.e. `archive_start = file_size - archive_data_length
- 24` is negative — the stub aborts with the invalid-archive-start report
before creating the extraction directory or writing any resource file. -/
theorem archive_start_range_check (dec : List Nat → Option ArchiveHeader)
    (decomp : List Nat → Option (List Nat)) (elev : Option Bool) (file : List Nat)
    (h24 : 24 ≤ file.length)
    (hmark : (file.drop (file.length - 24)).drop 8 = markerBytes)
    (hbig : file.length < fromLe32 (((file.drop (file.length - 24)).drop 4).take 4) + 24) :
    extractorRun dec decomp elev file = ⟨[], none, StubOutcome.badArchiveStart⟩ := by
  simp only [extractorRun]
  rw [if_neg (show ¬file.length < 24 by omega)]
  simp only [hmark]
  rw [if_neg (show ¬markerBytes ≠ markerBytes from fun hx => hx rfl)]
  have hc : (file.length : Int) -
      ((fromLe32 (((file.drop (file.length - 24)).drop 4).take 4) : Int) + 24) < 0 := by
    omega
  rw [if_pos hc]

/-- A 24-byte file that is all footer: valid marker but
`archive_data_length = 1` exceeds the zero bytes available before the
footer. -/
def c6File : List Nat := le32 0 ++ le32 1 ++ markerBytes

/-- Witness for C6 at the concrete truncated file. -/
theorem archive_start_range_check_witness :
    extractorRun wDec wDecomp none c6File = ⟨[], none, StubOutcome.badArchiveStart⟩ :=
  archive_start_range_check wDec wDecomp none c6File (by decide) (by decide) (by decide)

theorem set_append_right (xs : List Nat) :
    ∀ (ys : List Nat) (k b : Nat), (xs ++ ys).set (xs.length + k) b = xs ++ ys.set k b := by
  induction xs with
  | nil => intro ys k b; simp
  | cons x xs ih =>
    intro ys k b
    simp only [List.cons_append, List.length_cons]
    have h2 : xs.length + 1 + k = (xs.length + k) + 1 := by omega
    rw [h2]
    simp only [List.set]
    rw [ih]

/-- Every successful packer output decomposes as
`stub ++ (header ++ payload) ++ footer`. -/
theorem compileExe_ok_inv (enc : ArchiveHeader → List Nat) (comp : List Nat → List Nat)
    (fs : String → Option (List Nat)) (st : BuildRequest) (out : List Nat) (evs : List IOEvent)
    (h : compileExe enc comp fs st = (Except.ok out, evs)) :
    ∃ stub hb fp, out =
      stub ++ (hb ++ fp) ++ (le32 hb.length ++ le32 (hb.length + fp.length) ++ markerBytes) := by
  by_cases hm : mainFileFound st = true
  · cases hstub : fs "stub.exe" with
    | none => simp [compileExe, hm, hstub] at h
    | some stub =>
      cases hrr : readResources fs st.resources with
      | mk res evs2 =>
        cases res with
        | error e => simp [compileExe, hm, hstub, hrr] at h
        | ok pr =>
          obtain ⟨entries, raw⟩ := pr
          rw [compileExe_eq enc comp fs st stub entries raw evs2 hm hstub hrr] at h
          simp only [Prod.mk.injEq, Except.ok.injEq] at h
          exact ⟨stub, enc (mkHeader st entries),
            if st.compress_resources then comp raw else raw, h.1.symm⟩
  · have hm' : mainFileFound st = false := by
      cases hq : mainFileFound st
      · rfl
      · exact absurd hq hm
    simp [compileExe, hm'] at h

/-- C4: flipping any single byte inside the 16-byte marker of a packed
file's trailer makes the stub fail the marker comparison and abort with the
invalid-marker report, with no resource file written and no directory
created — extraction never proceeds. -/
theorem marker_tamper_detection (enc : ArchiveHeader → List Nat) (comp : List Nat → List Nat)
    (fs : String → Option (List Nat)) (st : BuildRequest)
    (dec : List Nat → Option ArchiveHeader) (decomp : List Nat → Option (List Nat))
    (elev : Option Bool) (out : List Nat) (evs : List IOEvent)
    (hok : compileExe enc comp fs st = (Except.ok out, evs))
    (i b : Nat) (hi : i < 16) (hbyte : b ≠ markerBytes.getD i 0) :
    extractorRun dec decomp elev (out.set (out.length - 16 + i) b) =
      ⟨[], none, StubOutcome.badMarker⟩ := by
  obtain ⟨stub, hb2, fp, hout⟩ := compileExe_ok_inv enc comp fs st out evs hok
  subst hout
  have hshape :
      stub ++ (hb2 ++ fp) ++
          (le32 hb2.length ++ le32 (hb2.length + fp.length) ++ markerBytes) =
        (stub ++ (hb2 ++ fp) ++ (le32 hb2.length ++ le32 (hb2.length + fp.length))) ++
          markerBytes := by
    simp only [List.append_assoc]
  rw [hshape]
  set Q := stub ++ (hb2 ++ fp) ++ (le32 hb2.length ++ le32 (hb2.length + fp.length)) with hQ
  have hQlen : (Q ++ markerBytes).length = Q.length + 16 := by
    simp [List.length_append, markerBytes_length]
  have hidx : (Q ++ markerBytes).length - 16 + i = Q.length + i := by omega
  rw [hidx, set_append_right]
  set M := markerBytes.set i b with hM
  have hM16 : M.length = 16 := by
    simp [hM, markerBytes_length]
  have hG8 : (le32 hb2.length ++ le32 (hb2.length + fp.length)).length = 8 := by
    simp [le32]
  have hMne : M ≠ markerBytes := by
    intro he
    have hgd : M.getD i 0 = b := by
      have hi' : i < markerBytes.length := by rw [markerBytes_length]; exact hi
      simp [hM, List.getD, List.getElem?_set_self, hi']
    rw [he] at hgd
    exact hbyte hgd.symm
  have hassoc : Q ++ M = (stub ++ (hb2 ++ fp)) ++
      ((le32 hb2.length ++ le32 (hb2.length + fp.length)) ++ M) := by
    rw [hQ]
    simp only [List.append_assoc]
  have hlen : (Q ++ M).length = (stub ++ (hb2 ++ fp)).length + 24 := by
    rw [hassoc]
    simp only [List.length_append, hM16] at *
    omega
  have hfb : (Q ++ M).drop ((Q ++ M).length - 24) =
      (le32 hb2.length ++ le32 (hb2.length + fp.length)) ++ M := by
    rw [hassoc]
    apply List.drop_left'
    rw [← hassoc, hlen]
    omega
  have hmark : ((Q ++ M).drop ((Q ++ M).length - 24)).drop 8 = M := by
    rw [hfb]
    exact List.drop_left' hG8
  simp only [extractorRun]
  rw [if_neg (show ¬(Q ++ M).length < 24 by omega)]
  simp only [hmark]
  rw [if_pos hMne]

/-- A concrete readable file system for witnesses: a stub and two small
resources. -/
def demoFs : String → Option (List Nat) := fun p =>
  if p = "stub.exe" then some [9, 9]
  else if p = "a\\app.bat" then some [1, 2, 3]
  else if p = "b\\data.txt" then some [4, 5]
  else none

/-- A concrete valid build request over `demoFs`. -/
def demoSt : BuildRequest :=
  { extraction_path := "out", main_file := "app.bat",
    resources := ["a\\app.bat", "b\\data.txt"], output_exe := "packed.exe",
    execution_style := "No-Window", run_as_admin := false,
    compress_resources := false }

/-- The bytes the packer produces for the demo request. -/
def demoOut : List Nat :=
  match (compileExe wEnc wComp demoFs demoSt).1 with
  | Except.ok o => o
  | Except.error _ => []

/-- The event trace of the demo pack. -/
def demoEvents : List IOEvent := (compileExe wEnc wComp demoFs demoSt).2

/-- Witness for C4: zeroing the first marker byte of the demo output makes
the stub abort with the invalid-marker report. -/
theorem marker_tamper_detection_witness :
    extractorRun wDec wDecomp none (demoOut.set (demoOut.length - 16 + 0) 0) =
      ⟨[], none, StubOutcome.badMarker⟩ :=
  marker_tamper_detection wEnc wComp demoFs demoSt wDec wDecomp none demoOut demoEvents
    rfl 0 0 (by decide) (by decide)

/-- The byte offset of entry `k` inside the decompressed payload: the sum of
the sizes of the entries before it. -/
def sizePrefix (rs : List ResourceEntry) (k : Nat) : Nat :=
  ((rs.take k).map (fun r => r.size)).sum

theorem sizePrefix_zero (rs : List ResourceEntry) : sizePrefix rs 0 = 0 := by
  simp [sizePrefix]

theorem sizePrefix_succ_cons (r : ResourceEntry) (rs : List ResourceEntry) (i : Nat) :
    sizePrefix (r :: rs) (i + 1) = r.size + sizePrefix rs i := by
  simp [sizePrefix, List.take_succ_cons]

theorem extractLoop_ok_aux (ep : String) (bytes : List Nat) :
    ∀ (rs : List ResourceEntry) (off : Nat),
      (∀ i (hi : i < rs.length),
        off + sizePrefix rs i + (rs.get ⟨i, hi⟩).size ≤ bytes.length) →
      ∃ ws, extractLoop ep bytes off rs = Except.ok ws ∧ ws.length = rs.length ∧
        ∀ i (hi : i < rs.length) (hw : i < ws.length),
          ws.get ⟨i, hw⟩ = (joinPath ep (rs.get ⟨i, hi⟩).filename,
            (bytes.drop (off + sizePrefix rs i)).take (rs.get ⟨i, hi⟩).size) := by
  intro rs
  induction rs with
  | nil =>
    intro off _
    exact ⟨[], rfl, rfl, fun i hi => absurd hi (by simp)⟩
  | cons r rs ih =>
    intro off hfit
    have h0 : off + r.size ≤ bytes.length := by
      have h := hfit 0 (by simp)
      simpa [sizePrefix_zero] using h
    obtain ⟨ws, hws, hlen, hget⟩ := ih (off + r.size) (fun i hi => by
      have h := hfit (i + 1) (by simpa using Nat.succ_lt_succ hi)
      rw [sizePrefix_succ_cons] at h
      have hg : ((r :: rs).get ⟨i + 1, by simpa using Nat.succ_lt_succ hi⟩) =
          rs.get ⟨i, hi⟩ := rfl
      rw [hg] at h
      omega)
    refine ⟨(joinPath ep r.filename, (bytes.drop off).take r.size) :: ws, ?_, ?_, ?_⟩
    · simp only [extractLoop]
      rw [if_neg (by omega), hws]
    · simp [hlen]
    · intro i hi hw
      cases i with
      | zero =>
        simp [sizePrefix_zero, List.get]
      | succ j =>
        have hj : j < rs.length := by simpa using hi
        have hjw : j < ws.length := by
          rw [hlen]
          exact hj
        have hg1 : ((joinPath ep r.filename, (bytes.drop off).take r.size) :: ws).get
            ⟨j + 1, hw⟩ = ws.get ⟨j, hjw⟩ := rfl
        have hg2 : ((r :: rs).get ⟨j + 1, hi⟩) = rs.get ⟨j, hj⟩ := rfl
        rw [hg1, hg2, hget j hj hjw, sizePrefix_succ_cons]
        have harith : off + (r.size + sizePrefix rs j) = off + r.size + sizePrefix rs j := by
          omega
        rw [harith]

theorem extractLoop_err_aux (ep : String) (bytes : List Nat) :
    ∀ (rs : List ResourceEntry) (off : Nat) (k : Nat) (hk : k < rs.length),
      (∀ i (hi : i < k),
        off + sizePrefix rs i + (rs.get ⟨i, Nat.lt_trans hi hk⟩).size ≤ bytes.length) →
      bytes.length < off + sizePrefix rs k + (rs.get ⟨k, hk⟩).size →
      ∃ ws, extractLoop ep bytes off rs = Except.error ws ∧ ws.length = k ∧
        ∀ i (hi : i < k) (hw : i < ws.length),
          ws.get ⟨i, hw⟩ = (joinPath ep (rs.get ⟨i, Nat.lt_trans hi hk⟩).filename,
            (bytes.drop (off + sizePrefix rs i)).take
              (rs.get ⟨i, Nat.lt_trans hi hk⟩).size) := by
  intro rs
  induction rs with
  | nil =>
    intro off k hk
    exact absurd hk (by simp)
  | cons r rs ih =>
    intro off k hk hbefore hfail
    cases k with
    | zero =>
      refine ⟨[], ?_, rfl, fun i hi => absurd hi (by omega)⟩
      simp only [extractLoop]
      rw [if_pos]
      have h := hfail
      rw [sizePrefix_zero] at h
      simpa using h
    | succ k2 =>
      have hk2 : k2 < rs.length := by simpa using hk
      have h0 : off + r.size ≤ bytes.length := by
        have h := hbefore 0 (Nat.succ_pos k2)
        simpa [sizePrefix_zero] using h
      have hfail2 : bytes.length < off + r.size + sizePrefix rs k2 +
          (rs.get ⟨k2, hk2⟩).size := by
        have h := hfail
        rw [sizePrefix_succ_cons] at h
        have hg : ((r :: rs).get ⟨k2 + 1, hk⟩) = rs.get ⟨k2, hk2⟩ := rfl
        rw [hg] at h
        omega
      obtain ⟨ws, hws, hlen, hget⟩ := ih (off + r.size) k2 hk2 (fun i hi => by
        have h := hbefore (i + 1) (Nat.succ_lt_succ hi)
        rw [sizePrefix_succ_cons] at h
        have hg : ((r :: rs).get ⟨i + 1, Nat.lt_trans (Nat.succ_lt_succ hi) hk⟩) =
            rs.get ⟨i, Nat.lt_trans hi hk2⟩ := rfl
        rw [hg] at h
        omega) hfail2
      refine ⟨(joinPath ep r.filename, (bytes.drop off).take r.size) :: ws, ?_, ?_, ?_⟩
      · simp only [extractLoop]
        rw [if_neg (by omega), hws]
      · simp [hlen]
      · intro i hi hw
        cases i with
        | zero =>
          simp [sizePrefix_zero, List.get]
        | succ j =>
          have hj : j < k2 := by omega
          have hjw : j < ws.length := by
            rw [hlen]
            exact hj
          have hg1 : ((joinPath ep r.filename, (bytes.drop off).take r.size) :: ws).get
              ⟨j + 1, hw⟩ = ws.get ⟨j, hjw⟩ := rfl
          have hg2 : ((r :: rs).get ⟨j + 1, Nat.lt_trans hi hk⟩) =
              rs.get ⟨j, Nat.lt_trans hj hk2⟩ := rfl
          rw [hg1, hg2, hget j hj hjw, sizePrefix_succ_cons]
          have harith : off + (r.size + sizePrefix rs j) = off + r.size + sizePrefix rs j := by
            omega
          rw [harith]

/-- C5: extraction walks `resources` in header order with a running offset
from 0; when every entry fits, each entry yields exactly the `size`-byte
slice at its prefix-sum offset; when entry `k` is the first whose
`offset + size` exceeds the payload length, the loop stops there with the
corrupt-archive outcome and exactly the `k` files already written are kept
(the uncompressed `extractorRest` maps the failing loop to the
`incompleteResource` outcome without discarding them). -/
theorem extraction_offset_walk (decomp : List Nat → Option (List Nat)) (ep : String)
    (bytes : List Nat) (rs : List ResourceEntry) :
    ((∀ i (hi : i < rs.length),
        sizePrefix rs i + (rs.get ⟨i, hi⟩).size ≤ bytes.length) →
      ∃ ws, extractLoop ep bytes 0 rs = Except.ok ws ∧ ws.length = rs.length ∧
        ∀ i (hi : i < rs.length) (hw : i < ws.length),
          ws.get ⟨i, hw⟩ = (joinPath ep (rs.get ⟨i, hi⟩).filename,
            (bytes.drop (sizePrefix rs i)).take (rs.get ⟨i, hi⟩).size)) ∧
    (∀ k (hk : k < rs.length),
      (∀ i (hi : i < k),
        sizePrefix rs i + (rs.get ⟨i, Nat.lt_trans hi hk⟩).size ≤ bytes.length) →
      bytes.length < sizePrefix rs k + (rs.get ⟨k, hk⟩).size →
      ∃ ws, extractLoop ep bytes 0 rs = Except.error ws ∧ ws.length = k ∧
        ∀ i (hi : i < k) (hw : i < ws.length),
          ws.get ⟨i, hw⟩ = (joinPath ep (rs.get ⟨i, Nat.lt_trans hi hk⟩).filename,
            (bytes.drop (sizePrefix rs i)).take (rs.get ⟨i, Nat.lt_trans hi hk⟩).size)) ∧
    (∀ (header : ArchiveHeader) (fB : List Nat) (ws : List (String × List Nat)),
      header.is_compressed = false →
      extractLoop header.extraction_path fB 0 header.resources = Except.error ws →
      extractorRest decomp header fB =
        ⟨ws, some header.extraction_path, StubOutcome.incompleteResource⟩) := by
  refine ⟨fun hfit => ?_, fun k hk hbefore hfail => ?_, fun header fB ws hcf hloop => ?_⟩
  · obtain ⟨ws, hws, hlen, hget⟩ := extractLoop_ok_aux ep bytes rs 0 (fun i hi => by
      have h := hfit i hi
      omega)
    refine ⟨ws, hws, hlen, fun i hi hw => ?_⟩
    have h := hget i hi hw
    rw [Nat.zero_add] at h
    exact h
  · obtain ⟨ws, hws, hlen, hget⟩ := extractLoop_err_aux ep bytes rs 0 k hk
      (fun i hi => by
        have h := hbefore i hi
        omega)
      (by omega)
    refine ⟨ws, hws, hlen, fun i hi hw => ?_⟩
    have h := hget i hi hw
    rw [Nat.zero_add] at h
    exact h
  · simp only [extractorRest, hcf, Bool.false_eq_true, if_false, hloop]

/-- Witness for C5's failure branch at a concrete payload that is too short
for the second entry. -/
theorem extraction_offset_walk_witness :
    ∃ ws, extractLoop "out" [7, 8, 9] 0 [⟨"a", 2⟩, ⟨"b", 3⟩] = Except.error ws ∧
      ws.length = 1 ∧
      ∀ i (hi : i < 1) (hw : i < ws.length),
        ws.get ⟨i, hw⟩ =
          (joinPath "out" (([⟨"a", 2⟩, ⟨"b", 3⟩] :
              List ResourceEntry).get ⟨i, Nat.lt_trans hi (by decide)⟩).filename,
            (([7, 8, 9] : List Nat).drop (sizePrefix [⟨"a", 2⟩, ⟨"b", 3⟩] i)).take
              (([⟨"a", 2⟩, ⟨"b", 3⟩] :
                List ResourceEntry).get ⟨i, Nat.lt_trans hi (by decide)⟩).size) :=
  (extraction_offset_walk wDecomp "out" [7, 8, 9] [⟨"a", 2⟩, ⟨"b", 3⟩]).2.1 1 (by decide)
    (fun i hi => by
      have h0 : i = 0 := by omega
      subst h0
      exact (by decide : (0 : Nat) + 2 ≤ 3))
    (by decide)

/-- C8 (amended): when the header's `run_as_admin` flag is set, both the
not-elevated case and the failed-query case abort before any directory or
file is touched and never launch, each presenting an administrator-required
notice — but the two notices are distinct strings (the failed-query notice
carries an extra failure explanation), not the identical notice. -/
theorem admin_gate_aborts (dec : List Nat → Option ArchiveHeader)
    (decomp : List Nat → Option (List Nat)) (stub hb payload : List Nat)
    (h : ArchiveHeader) (hdec : dec hb = some h)
    (hal : hb.length + payload.length < 2 ^ 32) (hadmin : h.run_as_admin = true) :
    extractorRun dec decomp (some false)
        (stub ++ (hb ++ payload) ++
          (le32 hb.length ++ le32 (hb.length + payload.length) ++ markerBytes)) =
      ⟨[], none, StubOutcome.adminNotice adminPlainMsg⟩ ∧
    extractorRun dec decomp none
        (stub ++ (hb ++ payload) ++
          (le32 hb.length ++ le32 (hb.length + payload.length) ++ markerBytes)) =
      ⟨[], none, StubOutcome.adminNotice adminFailMsg⟩ ∧
    adminPlainMsg ≠ adminFailMsg := by
  refine ⟨?_, ?_, by decide⟩
  · rw [extractorRun_packed dec decomp (some false) stub hb payload h hdec hal,
      if_pos hadmin]
  · rw [extractorRun_packed dec decomp none stub hb payload h hdec hal,
      if_pos hadmin]

/-- A header requiring elevation, for the admin-gate witnesses. -/
def adminHeader : ArchiveHeader :=
  ⟨"out", "m.exe", [⟨"m.exe", 1⟩], "normal", true, false⟩

/-- A packed file (empty stub) whose header requires elevation. -/
def adminFile : List Nat :=
  wEnc adminHeader ++ [7] ++
    (le32 (wEnc adminHeader).length ++ le32 ((wEnc adminHeader).length + 1) ++ markerBytes)

/-- Witness for the amended C8 at the concrete elevation-required file. -/
theorem admin_gate_aborts_witness :
    extractorRun wDec wDecomp (some false) adminFile =
      ⟨[], none, StubOutcome.adminNotice adminPlainMsg⟩ ∧
    extractorRun wDec wDecomp none adminFile =
      ⟨[], none, StubOutcome.adminNotice adminFailMsg⟩ ∧
    adminPlainMsg ≠ adminFailMsg :=
  admin_gate_aborts wDec wDecomp [] (wEnc adminHeader) [7] adminHeader
    (wDec_wEnc adminHeader) (by decide) rfl

/-- Counterexample for C8 as stated: on a concrete packed file requiring
elevation, the failed-query run and the not-elevated run end differently
(the notices differ), so the query failure is not handled identically. -/
theorem admin_gate_not_identical :
    (extractorRun wDec wDecomp none adminFile).outcome ≠
      (extractorRun wDec wDecomp (some false) adminFile).outcome := by
  decide

theorem footerBytes_length (a b : Nat) : (le32 a ++ le32 b ++ markerBytes).length = 24 := rfl

/-- Any packed layout ends with its own 24-byte trailer. -/
theorem packed_trailer (stub hb fp : List Nat) :
    24 ≤ (stub ++ (hb ++ fp) ++
        (le32 hb.length ++ le32 (hb.length + fp.length) ++ markerBytes)).length ∧
    (stub ++ (hb ++ fp) ++
        (le32 hb.length ++ le32 (hb.length + fp.length) ++ markerBytes)).drop
        ((stub ++ (hb ++ fp) ++
          (le32 hb.length ++ le32 (hb.length + fp.length) ++ markerBytes)).length - 24) =
      le32 hb.length ++ le32 (hb.length + fp.length) ++ markerBytes := by
  have hlen : (stub ++ (hb ++ fp) ++
      (le32 hb.length ++ le32 (hb.length + fp.length) ++ markerBytes)).length =
      (stub ++ (hb ++ fp)).length + 24 := by
    rw [List.length_append, footerBytes_length]
  constructor
  · omega
  · apply List.drop_left'
    omega

/-- The three fields of a trailer, recovered by the extractor's slicing. -/
theorem trailer_fields (a b : Nat) :
    (le32 a ++ le32 b ++ markerBytes).take 4 = le32 a ∧
    ((le32 a ++ le32 b ++ markerBytes).drop 4).take 4 = le32 b ∧
    (le32 a ++ le32 b ++ markerBytes).drop 8 = markerBytes := by
  refine ⟨?_, ?_, ?_⟩
  · rw [List.append_assoc]
    exact List.take_left' (le32_length a)
  · rw [List.append_assoc, List.drop_left' (le32_length a)]
    exact List.take_left' (le32_length b)
  · exact List.drop_left' (by simp [le32])

/-- C2 (amended): for every file the packer produces whose archive block
(header plus stored payload) is smaller than `2 ^ 32` bytes, the last 24
bytes are exactly `LE32 header_length ++ LE32 archive_data_length ++ marker`,
and reading the trailer back at `size - 24` recovers exactly the
`header_length` and `archive_data_length` computed at build time. -/
theorem footer_recovery (enc : ArchiveHeader → List Nat) (comp : List Nat → List Nat)
    (fs : String → Option (List Nat)) (st : BuildRequest)
    (stub : List Nat) (entries : List ResourceEntry) (raw : List Nat) (evs : List IOEvent)
    (hmain : mainFileFound st = true)
    (hstub : fs "stub.exe" = some stub)
    (hres : readResources fs st.resources = (Except.ok (entries, raw), evs))
    (hsize : (enc (mkHeader st entries)).length +
      (if st.compress_resources then comp raw else raw).length < 2 ^ 32) :
    ∃ out evs2,
      compileExe enc comp fs st = (Except.ok out, evs2) ∧
      24 ≤ out.length ∧
      out.drop (out.length - 24) =
        le32 (enc (mkHeader st entries)).length ++
          le32 ((enc (mkHeader st entries)).length +
            (if st.compress_resources then comp raw else raw).length) ++ markerBytes ∧
      fromLe32 ((out.drop (out.length - 24)).take 4) =
        (enc (mkHeader st entries)).length ∧
      fromLe32 (((out.drop (out.length - 24)).drop 4).take 4) =
        (enc (mkHeader st entries)).length +
          (if st.compress_resources then comp raw else raw).length := by
  obtain ⟨h24, hdrop⟩ :=
    packed_trailer stub (enc (mkHeader st entries))
      (if st.compress_resources then comp raw else raw)
  obtain ⟨hf1, hf2, -⟩ :=
    trailer_fields (enc (mkHeader st entries)).length
      ((enc (mkHeader st entries)).length +
        (if st.compress_resources then comp raw else raw).length)
  refine ⟨_, _, compileExe_eq enc comp fs st stub entries raw evs hmain hstub hres,
    h24, hdrop, ?_, ?_⟩
  · rw [hdrop, hf1, fromLe32_le32, Nat.mod_eq_of_lt]
    omega
  · rw [hdrop, hf2, fromLe32_le32, Nat.mod_eq_of_lt hsize]

/-- Witness for the amended C2 at the demo request. -/
theorem footer_recovery_witness :
    ∃ out evs2,
      compileExe wEnc wComp demoFs demoSt = (Except.ok out, evs2) ∧
      24 ≤ out.length ∧
      out.drop (out.length - 24) =
        le32 (wEnc (mkHeader demoSt [⟨"app.bat", 3⟩, ⟨"data.txt", 2⟩])).length ++
          le32 ((wEnc (mkHeader demoSt [⟨"app.bat", 3⟩, ⟨"data.txt", 2⟩])).length +
            (if demoSt.compress_resources then wComp [1, 2, 3, 4, 5] else
              [1, 2, 3, 4, 5]).length) ++ markerBytes ∧
      fromLe32 ((out.drop (out.length - 24)).take 4) =
        (wEnc (mkHeader demoSt [⟨"app.bat", 3⟩, ⟨"data.txt", 2⟩])).length ∧
      fromLe32 (((out.drop (out.length - 24)).drop 4).take 4) =
        (wEnc (mkHeader demoSt [⟨"app.bat", 3⟩, ⟨"data.txt", 2⟩])).length +
          (if demoSt.compress_resources then wComp [1, 2, 3, 4, 5] else
            [1, 2, 3, 4, 5]).length :=
  footer_recovery wEnc wComp demoFs demoSt [9, 9] [⟨"app.bat", 3⟩, ⟨"data.txt", 2⟩]
    [1, 2, 3, 4, 5] [IOEvent.readFile "a\\app.bat", IOEvent.readFile "b\\data.txt"]
    (by decide) rfl rfl (by decide)

/-- A file system holding a single `2 ^ 32`-byte resource (and an empty
stub): the smallest size at which `data.len() as u32` wraps to 0. -/
def bigFs : String → Option (List Nat) := fun p =>
  if p = "big.bin" then some (List.replicate (2 ^ 32) 0)
  else if p = "stub.exe" then some []
  else none

/-- The build request packing the `2 ^ 32`-byte resource. -/
def bigSt : BuildRequest :=
  { extraction_path := "rc_extracted", main_file := "big.bin", resources := ["big.bin"],
    output_exe := "packed.exe", execution_style := "normal", run_as_admin := false,
    compress_resources := false }

/-- The header the packer records for the big resource: its size field has
wrapped to 0. -/
def bigHeader : ArchiveHeader :=
  ⟨"rc_extracted", "big.bin", [⟨"big.bin", 0⟩], "normal", false, false⟩

theorem bigFs_read : readResources bigFs ["big.bin"] =
    (Except.ok ([⟨"big.bin", 0⟩], List.replicate (2 ^ 32) 0),
      [IOEvent.readFile "big.bin"]) := by
  have h1 : bigFs "big.bin" = some (List.replicate (2 ^ 32) 0) := rfl
  have h2 : fileName "big.bin" = some "big.bin" := rfl
  simp only [readResources, h1, h2, List.length_replicate, Nat.mod_self, List.append_nil]

theorem bigSt_header : mkHeader bigSt [⟨"big.bin", 0⟩] = bigHeader := rfl

/-- The archive-data length of the big build: header bytes plus `2 ^ 32`
payload bytes — beyond the `u32` range of the trailer field. -/
def bigArchiveLen : Nat := (wEnc bigHeader).length + 2 ^ 32

/-- The exact output file of the big build, in the packer's layout shape. -/
def bigOutput : List Nat :=
  [] ++ (wEnc bigHeader ++ List.replicate (2 ^ 32) 0) ++
    (le32 (wEnc bigHeader).length ++
      le32 ((wEnc bigHeader).length + (List.replicate (2 ^ 32) (0 : Nat)).length) ++
      markerBytes)

theorem bigSt_valid : mainFileFound bigSt = true := by decide

theorem bigFs_stub : bigFs "stub.exe" = some [] := rfl

theorem big_compile_pair : compileExe wEnc wComp bigFs bigSt =
    (Except.ok ([] ++
        ((wEnc (mkHeader bigSt [⟨"big.bin", 0⟩])) ++
          (if bigSt.compress_resources then wComp (List.replicate (2 ^ 32) 0) else
            List.replicate (2 ^ 32) 0)) ++
        (le32 (wEnc (mkHeader bigSt [⟨"big.bin", 0⟩])).length ++
          le32 ((wEnc (mkHeader bigSt [⟨"big.bin", 0⟩])).length +
            (if bigSt.compress_resources then wComp (List.replicate (2 ^ 32) 0) else
              List.replicate (2 ^ 32) 0).length) ++ markerBytes)),
      IOEvent.readFile "stub.exe" :: [IOEvent.readFile "big.bin"] ++
        [IOEvent.writeFile bigSt.output_exe]) :=
  compileExe_eq wEnc wComp bigFs bigSt [] [⟨"big.bin", 0⟩]
    (List.replicate (2 ^ 32) 0) [IOEvent.readFile "big.bin"] bigSt_valid bigFs_stub bigFs_read

theorem big_compile : (compileExe wEnc wComp bigFs bigSt).1 = Except.ok bigOutput := by
  have hnc : ¬bigSt.compress_resources = true := by decide
  have hmk : mkHeader bigSt [⟨"big.bin", 0⟩] = bigHeader := rfl
  rw [big_compile_pair, if_neg hnc, hmk]
  rfl

/-- Counterexample to C2 as stated: on the `2 ^ 32`-byte build, the
`archive_data_length` recovered from the trailer differs from the
archive-data length computed at build time (it has been truncated mod
`2 ^ 32`). -/
theorem footer_recovery_overflow :
    (compileExe wEnc wComp bigFs bigSt).1 = Except.ok bigOutput ∧
    fromLe32 (((bigOutput.drop (bigOutput.length - 24)).drop 4).take 4) ≠ bigArchiveLen := by
  refine ⟨big_compile, ?_⟩
  obtain ⟨-, hdrop⟩ := packed_trailer [] (wEnc bigHeader) (List.replicate (2 ^ 32) 0)
  obtain ⟨-, hf2, -⟩ := trailer_fields (wEnc bigHeader).length
    ((wEnc bigHeader).length + (List.replicate (2 ^ 32) (0 : Nat)).length)
  have hshape : bigOutput = [] ++ (wEnc bigHeader ++ List.replicate (2 ^ 32) 0) ++
      (le32 (wEnc bigHeader).length ++
        le32 ((wEnc bigHeader).length + (List.replicate (2 ^ 32) (0 : Nat)).length) ++
        markerBytes) := rfl
  rw [hshape, hdrop, hf2, fromLe32_le32]
  simp only [List.length_replicate]
  have hsmall : (wEnc bigHeader).length < 2 ^ 32 := by decide
  have hp : (2 : Nat) ^ 32 = 4294967296 := by norm_num
  simp only [bigArchiveLen, hp] at *
  omega

/-- C3 (amended): for every archive the packer builds from resource files
that are each smaller than `2 ^ 32` bytes, the sum of the header's size
fields equals exactly the length of the raw concatenated payload — which is
what decompression returns for the stored payload under the compression
round-trip contract. -/
theorem size_invariant (fs : String → Option (List Nat)) (paths : List String)
    (entries : List ResourceEntry) (raw : List Nat) (evs : List IOEvent)
    (comp : List Nat → List Nat) (decomp : List Nat → Option (List Nat))
    (hok : readResources fs paths = (Except.ok (entries, raw), evs))
    (hsmall : ∀ p ∈ paths, (contentsOf fs p).length < 2 ^ 32)
    (hco : ∀ x, decomp (comp x) = some x) :
    (entries.map (fun r => r.size)).sum = raw.length ∧
    decomp (comp raw) = some raw := by
  obtain ⟨hent, hraw⟩ := readResources_ok_inv fs paths entries raw evs hok
  subst hent
  subst hraw
  refine ⟨?_, hco _⟩
  simp only [packEntries, packPayload, List.map_map, List.length_flatten,
    Function.comp_def]
  have hcong : paths.map (fun p => (contentsOf fs p).length % 2 ^ 32) =
      paths.map (fun p => (contentsOf fs p).length) :=
    List.map_congr_left fun p hp => Nat.mod_eq_of_lt (hsmall p hp)
  rw [hcong]

/-- Witness for the amended C3 at the demo request's resources. -/
theorem size_invariant_witness :
    (([⟨"app.bat", 3⟩, ⟨"data.txt", 2⟩] : List ResourceEntry).map (fun r => r.size)).sum =
      ([1, 2, 3, 4, 5] : List Nat).length ∧
    wDecomp (wComp [1, 2, 3, 4, 5]) = some [1, 2, 3, 4, 5] :=
  size_invariant demoFs ["a\\app.bat", "b\\data.txt"] [⟨"app.bat", 3⟩, ⟨"data.txt", 2⟩]
    [1, 2, 3, 4, 5] [IOEvent.readFile "a\\app.bat", IOEvent.readFile "b\\data.txt"]
    wComp wDecomp rfl (by decide) wDecomp_wComp

/-- Counterexample to C3 as stated: packing the single `2 ^ 32`-byte file
produces a header whose size fields sum to 0, while the payload (and hence
the decompressed payload) has length `2 ^ 32`. -/
theorem size_invariant_overflow :
    readResources bigFs ["big.bin"] =
      (Except.ok ([⟨"big.bin", 0⟩], List.replicate (2 ^ 32) 0),
        [IOEvent.readFile "big.bin"]) ∧
    (([⟨"big.bin", 0⟩] : List ResourceEntry).map (fun r => r.size)).sum ≠
      (List.replicate (2 ^ 32) (0 : Nat)).length := by
  refine ⟨bigFs_read, ?_⟩
  simp only [List.map_cons, List.map_nil, List.sum_cons, List.sum_nil,
    List.length_replicate]
  norm_num

/-- C1 (amended): for every build request whose resources are readable
files, whose `main_file` matches one resource filename, whose files are each
below the `u32` size range (archive block under `2 ^ 32` bytes), and whose
extraction target paths are pairwise distinct, packing and then extracting
reproduces byte-identical contents for every resource file, for any header
codec and compression codec satisfying their round-trip contracts and under
an elevation state that lets extraction proceed. -/
theorem pack_extract_roundtrip
    (enc : ArchiveHeader → List Nat) (dec : List Nat → Option ArchiveHeader)
    (comp : List Nat → List Nat) (decomp : List Nat → Option (List Nat))
    (fs : String → Option (List Nat)) (elev : Option Bool)
    (st : BuildRequest) (stub : List Nat)
    (hdec : ∀ h, dec (enc h) = some h)
    (hco : ∀ x, decomp (comp x) = some x)
    (hstub : fs "stub.exe" = some stub)
    (hres : ∀ p ∈ st.resources, (fs p).isSome ∧ (fileName p).isSome)
    (hmain : mainFileFound st = true)
    (hsizes : ∀ p ∈ st.resources, (contentsOf fs p).length < 2 ^ 32)
    (harch : (enc (mkHeader st (packEntries fs st.resources))).length +
      (if st.compress_resources then comp (packPayload fs st.resources)
        else packPayload fs st.resources).length < 2 ^ 32)
    (helev : st.run_as_admin = true → elev = some true)
    (hdist : (st.resources.map fun p => joinPath st.extraction_path (nameOf p)).Pairwise
      (fun a b => a ≠ b)) :
    ∃ out evs,
      compileExe enc comp fs st = (Except.ok out, evs) ∧
      ∀ p ∈ st.resources,
        finalDisk (extractorRun dec decomp elev out).writes
          (joinPath st.extraction_path (nameOf p)) = some (contentsOf fs p) := by
  have hrr := readResources_eq fs st.resources hres
  have hcomp := compileExe_eq enc comp fs st stub (packEntries fs st.resources)
    (packPayload fs st.resources) (st.resources.map IOEvent.readFile) hmain hstub hrr
  refine ⟨_, _, hcomp, ?_⟩
  intro p hp
  have hrun := extractorRun_packed dec decomp elev stub
    (enc (mkHeader st (packEntries fs st.resources)))
    (if st.compress_resources then comp (packPayload fs st.resources)
      else packPayload fs st.resources)
    (mkHeader st (packEntries fs st.resources))
    (hdec _) harch
  have hgate : extractorRun dec decomp elev
      (stub ++ (enc (mkHeader st (packEntries fs st.resources)) ++
        (if st.compress_resources then comp (packPayload fs st.resources)
          else packPayload fs st.resources)) ++
        (le32 (enc (mkHeader st (packEntries fs st.resources))).length ++
          le32 ((enc (mkHeader st (packEntries fs st.resources))).length +
            (if st.compress_resources then comp (packPayload fs st.resources)
              else packPayload fs st.resources).length) ++ markerBytes)) =
      extractorRest decomp (mkHeader st (packEntries fs st.resources))
        (if st.compress_resources then comp (packPayload fs st.resources)
          else packPayload fs st.resources) := by
    rw [hrun]
    by_cases ha : st.run_as_admin = true
    · rw [if_pos (show (mkHeader st (packEntries fs st.resources)).run_as_admin = true
        from ha), helev ha]
    · rw [if_neg (show ¬(mkHeader st (packEntries fs st.resources)).run_as_admin = true
        from ha)]
  have hrest : extractorRest decomp (mkHeader st (packEntries fs st.resources))
      (if st.compress_resources then comp (packPayload fs st.resources)
        else packPayload fs st.resources) =
      (match extractLoop st.extraction_path (packPayload fs st.resources) 0
          (packEntries fs st.resources) with
        | Except.error ws => ⟨ws, some st.extraction_path, StubOutcome.incompleteResource⟩
        | Except.ok ws => ⟨ws, some st.extraction_path,
            launchStep (mkHeader st (packEntries fs st.resources))⟩) := by
    by_cases hc : st.compress_resources = true
    · rw [if_pos hc]
      unfold extractorRest
      rw [if_pos (show (mkHeader st (packEntries fs st.resources)).is_compressed = true
        from hc), hco (packPayload fs st.resources)]
      rfl
    · rw [if_neg hc]
      unfold extractorRest
      rw [if_neg (show ¬(mkHeader st (packEntries fs st.resources)).is_compressed = true
        from hc)]
      rfl
  have hfns : packEntries fs st.resources =
      (st.resources.map fun q => (nameOf q, contentsOf fs q)).map
        (fun f => ⟨f.1, f.2.length⟩) := by
    simp only [packEntries, List.map_map, Function.comp_def]
    exact List.map_congr_left fun q hq => by
      rw [Nat.mod_eq_of_lt (hsizes q hq)]
  have hflat : packPayload fs st.resources =
      ((st.resources.map fun q => (nameOf q, contentsOf fs q)).map Prod.snd).flatten := by
    simp only [packPayload, List.map_map, Function.comp_def]
  have hloop0 := extractLoop_append st.extraction_path
    (st.resources.map fun q => (nameOf q, contentsOf fs q)) []
  simp only [List.nil_append, List.length_nil] at hloop0
  have hloop : extractLoop st.extraction_path (packPayload fs st.resources) 0
      (packEntries fs st.resources) = Except.ok
      ((st.resources.map fun q => (nameOf q, contentsOf fs q)).map
        (fun f => (joinPath st.extraction_path f.1, f.2))) := by
    rw [hfns, hflat]
    exact hloop0
  rw [hgate, hrest, hloop]
  have hmem : (joinPath st.extraction_path (nameOf p), contentsOf fs p) ∈
      (st.resources.map fun q => (nameOf q, contentsOf fs q)).map
        (fun f => (joinPath st.extraction_path f.1, f.2)) := by
    rw [List.map_map]
    exact List.mem_map.mpr ⟨p, hp, rfl⟩
  have hdist2 : ((((st.resources.map fun q => (nameOf q, contentsOf fs q)).map
      (fun f => (joinPath st.extraction_path f.1, f.2)))).map Prod.fst).Pairwise
      (fun a b => a ≠ b) := by
    rw [List.map_map, List.map_map]
    simpa [Function.comp_def] using hdist
  exact finalDisk_eq_of_mem _ _ _ hdist2 hmem

/-- Witness for the amended C1 at the demo request (uncompressed, two
distinct resources). -/
theorem pack_extract_roundtrip_witness :
    ∃ out evs,
      compileExe wEnc wComp demoFs demoSt = (Except.ok out, evs) ∧
      ∀ p ∈ demoSt.resources,
        finalDisk (extractorRun wDec wDecomp (some false) out).writes
          (joinPath demoSt.extraction_path (nameOf p)) = some (contentsOf demoFs p) :=
  pack_extract_roundtrip wEnc wDec wComp wDecomp demoFs (some false) demoSt [9, 9]
    wDec_wEnc wDecomp_wComp rfl (by decide) (by decide) (by decide) (by decide)
    (by decide) (by decide)

/-- A file system with two distinct resources that share the same
filename component. -/
def dupFs : String → Option (List Nat) := fun p =>
  if p = "stub.exe" then some []
  else if p = "a\\x.txt" then some [1]
  else if p = "b\\x.txt" then some [2]
  else none

/-- A build request packing both same-named resources. -/
def dupSt : BuildRequest :=
  { extraction_path := "out", main_file := "x.txt", resources := ["a\\x.txt", "b\\x.txt"],
    output_exe := "packed.exe", execution_style := "normal", run_as_admin := false,
    compress_resources := false }

/-- The packer output for the duplicate-filename request. -/
def dupOut : List Nat :=
  match (compileExe wEnc wComp dupFs dupSt).1 with
  | Except.ok o => o
  | Except.error _ => []

/-- Counterexample to C1 as stated: both resources of the duplicate-name
build are readable and `main_file` matches, yet extraction writes both to
the same target path, so the first resource's bytes `[1]` are not
reproduced — the final disk content at its path is `[2]`. -/
theorem roundtrip_duplicate_overwrite :
    contentsOf dupFs "a\\x.txt" = [1] ∧
    (compileExe wEnc wComp dupFs dupSt).1 = Except.ok dupOut ∧
    (extractorRun wDec wDecomp (some true) dupOut).writes =
      [("out\\x.txt", [1]), ("out\\x.txt", [2])] ∧
    finalDisk (extractorRun wDec wDecomp (some true) dupOut).writes
      (joinPath dupSt.extraction_path (nameOf "a\\x.txt")) ≠
      some (contentsOf dupFs "a\\x.txt") := by
  refine ⟨rfl, rfl, by decide, by decide⟩

end ResourceCompiler
